import Mathlib

/-!
Verification of the idle-detection core of `tmux_iterm_command/manager.py`
(`TmuxManager.wait_idle`), of the pane-resolution helper
(`TmuxManager._find_pane_by_index`) and of `TmuxManager.capture_pane`.

The detector is modelled on the simulated clock the specification
stipulates: the clock advances by exactly `poll_interval` during each
`time.sleep(poll_interval)` call, and every other statement of a loop
iteration reads the same clock value.  A pane snapshot fetch is a function
from the poll index to a `FetchResult`: either the captured lines (possibly
`None`, modelled as `Option.none`) or the message of a raised exception.
The loop is written with a fuel argument that bounds the number of
iterations; `wait_idle_core` supplies fuel `⌈timeout/poll_interval⌉ + 1`,
and termination theorems show this fuel is never exhausted when
`poll_interval > 0`.
-/

namespace TmuxManager

/-- Result of one `pane.capture_pane()` call inside the polling loop:
either lines (Python may return `None`, hence the inner `Option`) or the
message carried by a raised exception. -/
inductive FetchResult where
  | ok : Option (List String) → FetchResult
  | err : String → FetchResult
deriving DecidableEq

/-- Normalization of a fetched snapshot to a single text blob, translating
`if current_content is None: current_content = []` followed by
`'\n'.join(current_content) if current_content else ''`. -/
def normalize : Option (List String) → String
  | none => ""
  | some ls => if ls = [] then "" else String.intercalate "\n" ls

/-- Text blob a fetch result yields, `none` when the fetch raised. -/
def FetchResult.blob : FetchResult → Option String
  | .ok snap => some (normalize snap)
  | .err _ => none

/-- Tagged outcome of a `wait_idle` call, mirroring the dictionaries the
Python method returns: `success` and `timeout` carry `elapsed` (the
`timeout` outcome also echoes the requested timeout), `error` carries the
message and the error code string. -/
inductive WaitResult where
  | success (elapsed : ℚ)
  | timeout (elapsed : ℚ) (timeoutVal : ℚ)
  | error (message : String) (code : String)
deriving DecidableEq

/-- One iteration's update of the pair `(last_content, last_change_time)`:
if the blob differs from `last_content`, both are replaced (`last_content =
current_content_str; last_change_time = time.time()`); otherwise they are
kept. -/
def waitStep (blob : String) (now : ℚ) (last_content : String)
    (last_change_time : ℚ) : String × ℚ :=
  if blob ≠ last_content then (blob, now) else (last_content, last_change_time)

/-- The `while time.time() - start_time < timeout` loop of `wait_idle`,
with explicit state: `k` is the index of the next poll (equivalently the
number of completed fetches so far), `t` the current clock value, `c` the
`last_content` variable and `lT` the `last_change_time` variable.  The
returned `Nat` counts completed (non-raising) fetches.  The fuel argument
only bounds the iteration count; `none` means the fuel ran out, which the
termination theorems rule out for the fuel `wait_idle_core` supplies.
The branch structure translates the body literally: a raised fetch
propagates to the `except` clause (error code `WAIT_IDLE_FAILED`); the
`elif` fires exactly when the blob equals `last_content` and
`quiet_for ≤ now - last_change_time`; otherwise the state is updated by
`waitStep` and the loop sleeps for `poll_interval`. -/
def waitLoop (fetch : Nat → FetchResult) (s timeout quiet_for poll_interval : ℚ) :
    Nat → Nat → ℚ → String → ℚ → Option (WaitResult × Nat)
  | 0, k, t, _, _ =>
    if t - s < timeout then none else some (.timeout (t - s) timeout, k)
  | fuel + 1, k, t, c, lT =>
    if t - s < timeout then
      match fetch k with
      | .err msg => some (.error msg "WAIT_IDLE_FAILED", k)
      | .ok snap =>
        if normalize snap = c ∧ quiet_for ≤ t - lT then
          some (.success (t - s), k + 1)
        else
          waitLoop fetch s timeout quiet_for poll_interval fuel (k + 1)
            (t + poll_interval) (waitStep (normalize snap) t c lT).1
            (waitStep (normalize snap) t c lT).2
    else
      some (.timeout (t - s) timeout, k)

/-- Fuel sufficient for the whole loop: `⌈timeout / poll_interval⌉ + 1`
iterations. -/
def waitFuel (timeout poll_interval : ℚ) : Nat :=
  (⌈timeout / poll_interval⌉).toNat + 1

/-- The detection part of `wait_idle`, starting from `start_time = s`,
`last_content = ""`, `last_change_time = start_time`, with the clock at
`s`. -/
def wait_idle_core (fetch : Nat → FetchResult)
    (s timeout quiet_for poll_interval : ℚ) : Option (WaitResult × Nat) :=
  waitLoop fetch s timeout quiet_for poll_interval
    (waitFuel timeout poll_interval) 0 s "" s

/-- A tmux window as `_find_pane_by_index` sees it: its window index and
the indices of its panes. -/
structure WindowM where
  index : Nat
  panes : List Nat
deriving DecidableEq

/-- Translation of `TmuxManager._find_pane_by_index`: locate the first
window with the given index, then the first pane with the given pane
index; the third component is the error message (`None` on success). -/
def find_pane_by_index (windows : List WindowM) (window_index pane_index : Nat) :
    Option WindowM × Option Nat × Option String :=
  match windows.find? (fun w => w.index == window_index) with
  | none =>
    (none, none, some ("Window " ++ toString window_index ++ " not found"))
  | some w =>
    match w.panes.find? (fun p => p == pane_index) with
    | none =>
      (some w, none,
        some ("Pane " ++ toString pane_index ++ " not found in window "
          ++ toString window_index))
    | some p => (some w, some p, none)

/-- Translation of `TmuxManager.wait_idle`: resolve the pane first; a
resolution failure returns the `PANE_NOT_FOUND` error with zero fetches
performed, otherwise the detection loop runs. -/
def wait_idle (windows : List WindowM) (window_index pane_index : Nat)
    (fetch : Nat → FetchResult) (s timeout quiet_for poll_interval : ℚ) :
    Option (WaitResult × Nat) :=
  match (find_pane_by_index windows window_index pane_index).2.2 with
  | some msg => some (.error msg "PANE_NOT_FOUND", 0)
  | none => wait_idle_core fetch s timeout quiet_for poll_interval

/-- Outcome of a `capture_pane` call: `success` carries the joined content
and the `lines` field (length of the kept line list); `error` carries
message and code. -/
inductive CaptureResult where
  | success (content : String) (lines : Nat)
  | error (message : String) (code : String)
deriving DecidableEq

/-- Python's `xs[-n:]` for a nonnegative `n`: the whole list when `n = 0`
(since `-0 == 0`), otherwise the last `n` elements. -/
def pySliceLast (n : Nat) (xs : List String) : List String :=
  if n = 0 then xs else xs.drop (xs.length - n)

/-- Translation of `TmuxManager.capture_pane`: resolve the pane, fetch its
content (a raising fetch yields `CAPTURE_PANE_FAILED`), replace `None` by
`[]`, keep only the last `lines` lines when there are more than `lines`,
and join with newlines (empty kept list yields the empty string). -/
def capture_pane (windows : List WindowM) (window_index pane_index : Nat)
    (fetch : FetchResult) (lines : Nat) : CaptureResult :=
  match (find_pane_by_index windows window_index pane_index).2.2 with
  | some msg => .error msg "PANE_NOT_FOUND"
  | none =>
    match fetch with
    | .err msg => .error msg "CAPTURE_PANE_FAILED"
    | .ok snap =>
      let result := match snap with
        | none => []
        | some ls => ls
      let trimmed := if lines < result.length then pySliceLast lines result
        else result
      let output := if trimmed = [] then "" else String.intercalate "\n" trimmed
      .success output trimmed.length

/-- Two fetch results are normalization-equivalent when both raise the same
message or both return snapshots with the same text blob. -/
def FetchResult.normEq : FetchResult → FetchResult → Prop
  | .ok snap, .ok snap2 => normalize snap = normalize snap2
  | .err msg, .err msg2 => msg = msg2
  | _, _ => False

/-- Whether a `wait_idle` result is a success outcome. -/
def isSuccessResult : Option (WaitResult × Nat) → Bool
  | some (.success _, _) => true
  | _ => false

/-- Whether a `wait_idle` result is a timeout outcome. -/
def isTimeoutResult : Option (WaitResult × Nat) → Bool
  | some (.timeout _ _, _) => true
  | _ => false

/-- States `(k, t, last_content, last_change_time)` the polling loop can be
in at the top of an iteration, for a given fetch function, `start_time = s`,
timeout and poll interval.  `init` is the state on loop entry; `step`
follows one iteration that fetched successfully (it over-approximates by
also including states the loop would have returned from, which only
strengthens invariants proved over it). -/
inductive WaitReach (fetch : Nat → FetchResult) (s timeout poll_interval : ℚ) :
    Nat → ℚ → String → ℚ → Prop where
  | init : WaitReach fetch s timeout poll_interval 0 s "" s
  | step : ∀ k t c lT snap, WaitReach fetch s timeout poll_interval k t c lT →
      t - s < timeout → fetch k = .ok snap →
      WaitReach fetch s timeout poll_interval (k + 1) (t + poll_interval)
        (waitStep (normalize snap) t c lT).1 (waitStep (normalize snap) t c lT).2

/-! ### Auxiliary lemmas about the loop -/

/-- The updated `last_change_time` lies between the old one and the current
clock value. -/
lemma waitStep_snd_bounds (blob : String) (now : ℚ) (c : String) (lT : ℚ)
    (h : lT ≤ now) :
    lT ≤ (waitStep blob now c lT).2 ∧ (waitStep blob now c lT).2 ≤ now := by
  unfold waitStep
  split
  · exact ⟨h, le_rfl⟩
  · exact ⟨le_rfl, h⟩

/-- With enough fuel the loop always returns: each iteration advances the
clock by `poll_interval`, so fuel `f` suffices as soon as
`timeout ≤ (t - s) + f * poll_interval`. -/
lemma waitLoop_isSome (fetch : Nat → FetchResult) (s T q p : ℚ) :
    ∀ (fuel k : ℕ) (t : ℚ) (c : String) (lT : ℚ), T ≤ t - s + (fuel : ℚ) * p →
      (waitLoop fetch s T q p fuel k t c lT).isSome := by
  intro fuel
  induction fuel with
  | zero =>
    intro k t c lT hf
    simp only [Nat.cast_zero, zero_mul, add_zero] at hf
    simp only [waitLoop]
    rw [if_neg (by linarith)]
    simp
  | succ f ih =>
    intro k t c lT hf
    simp only [waitLoop]
    split
    · split
      · simp
      · split
        · simp
        · apply ih
          push_cast at hf ⊢
          linarith
    · simp

/-- A nonnegative ceiling's `toNat`, cast to `ℚ`, dominates the argument. -/
lemma le_ceil_toNat (y : ℚ) (hy : 0 ≤ ⌈y⌉) : y ≤ ((⌈y⌉.toNat : ℕ) : ℚ) := by
  have h2 : ((⌈y⌉.toNat : ℕ) : ℚ) = ((⌈y⌉ : ℤ) : ℚ) := by
    exact_mod_cast Int.toNat_of_nonneg hy
  rw [h2]
  exact Int.le_ceil y

/-- The fuel `wait_idle_core` supplies covers the whole timeout budget. -/
lemma le_waitFuel_mul (T p : ℚ) (hp : 0 < p) :
    T ≤ ((waitFuel T p : ℕ) : ℚ) * p := by
  unfold waitFuel
  rcases le_or_lt T 0 with h | h
  · have h0 : (0 : ℚ) ≤ ((⌈T / p⌉.toNat : ℕ) : ℚ) := Nat.cast_nonneg _
    push_cast
    nlinarith
  · have hceil : (0 : ℤ) < ⌈T / p⌉ := Int.ceil_pos.mpr (div_pos h hp)
    have h2 : T / p ≤ ((⌈T / p⌉.toNat : ℕ) : ℚ) := le_ceil_toNat _ hceil.le
    have h3 : T = T / p * p := (div_mul_cancel₀ T hp.ne').symm
    push_cast
    nlinarith

/-- The detection core always returns an outcome when the poll interval is
positive. -/
lemma wait_idle_core_some (fetch : Nat → FetchResult) (s T q p : ℚ)
    (hp : 0 < p) : ∃ r, wait_idle_core fetch s T q p = some r := by
  have h := waitLoop_isSome fetch s T q p (waitFuel T p) 0 s "" s
    (by have := le_waitFuel_mul T p hp; simp only [sub_self, zero_add]; exact this)
  exact Option.isSome_iff_exists.mp h

/-- Any success outcome of the loop has `quiet_for ≤ elapsed < timeout`,
as long as `start_time ≤ last_change_time ≤ now` on entry. -/
lemma waitLoop_success_bounds (fetch : Nat → FetchResult) (s T q p : ℚ)
    (hp : 0 ≤ p) :
    ∀ (fuel k : ℕ) (t : ℚ) (c : String) (lT : ℚ), s ≤ lT → lT ≤ t →
      ∀ e n, waitLoop fetch s T q p fuel k t c lT = some (.success e, n) →
        q ≤ e ∧ e < T := by
  intro fuel
  induction fuel with
  | zero =>
    intro k t c lT h1 h2 e n h
    simp only [waitLoop] at h
    split at h
    · simp at h
    · simp at h
  | succ f ih =>
    intro k t c lT h1 h2 e n h
    simp only [waitLoop] at h
    split at h
    case isTrue hin =>
      split at h
      · simp at h
      · rename_i snap heq
        split at h
        case isTrue hc =>
          simp only [Option.some.injEq, Prod.mk.injEq, WaitResult.success.injEq] at h
          constructor
          · calc q ≤ t - lT := hc.2
              _ ≤ t - s := by linarith
              _ = e := h.1
          · rw [← h.1]; exact hin
        case isFalse hc =>
          obtain ⟨hb1, hb2⟩ :=
            waitStep_snd_bounds (normalize snap) t c lT h2
          exact ih (k + 1) (t + p) _ _ (le_trans h1 hb1) (by linarith) e n h
    case isFalse hin =>
      simp at h

/-- Any timeout outcome of the loop has `timeout ≤ elapsed < timeout +
poll_interval` and echoes the requested timeout, as long as the clock has
not yet overshot by a full poll interval on entry. -/
lemma waitLoop_timeout_bounds (fetch : Nat → FetchResult) (s T q p : ℚ) :
    ∀ (fuel k : ℕ) (t : ℚ) (c : String) (lT : ℚ), t - s < T + p →
      ∀ e tv n, waitLoop fetch s T q p fuel k t c lT = some (.timeout e tv, n) →
        T ≤ e ∧ e < T + p ∧ tv = T := by
  intro fuel
  induction fuel with
  | zero =>
    intro k t c lT hover e tv n h
    simp only [waitLoop] at h
    split at h
    · simp at h
    case isFalse hin =>
      simp only [Option.some.injEq, Prod.mk.injEq, WaitResult.timeout.injEq] at h
      refine ⟨?_, ?_, h.1.2.symm⟩
      · rw [← h.1.1]; linarith [not_lt.mp hin]
      · rw [← h.1.1]; exact hover
  | succ f ih =>
    intro k t c lT hover e tv n h
    simp only [waitLoop] at h
    split at h
    case isTrue hin =>
      split at h
      · simp at h
      · rename_i snap heq
        split at h
        · simp at h
        · exact ih (k + 1) (t + p) _ _ (by linarith) e tv n h
    case isFalse hin =>
      simp only [Option.some.injEq, Prod.mk.injEq, WaitResult.timeout.injEq] at h
      refine ⟨?_, ?_, h.1.2.symm⟩
      · rw [← h.1.1]; linarith [not_lt.mp hin]
      · rw [← h.1.1]; exact hover

/-- When every fetch succeeds, the loop never produces an error outcome. -/
lemma waitLoop_no_error (fetch : Nat → FetchResult) (s T q p : ℚ)
    (hok : ∀ j, ((fetch j).blob).isSome) :
    ∀ (fuel k : ℕ) (t : ℚ) (c : String) (lT : ℚ) (m cd : String) (n : ℕ),
      waitLoop fetch s T q p fuel k t c lT ≠ some (.error m cd, n) := by
  intro fuel
  induction fuel with
  | zero =>
    intro k t c lT m cd n h
    simp only [waitLoop] at h
    split at h
    · simp at h
    · simp at h
  | succ f ih =>
    intro k t c lT m cd n h
    simp only [waitLoop] at h
    split at h
    · split at h
      · rename_i msg heq
        have hs := hok k
        rw [heq] at hs
        simp [FetchResult.blob] at hs
      · rename_i snap heq
        split at h
        · simp at h
        · exact ih (k + 1) _ _ _ m cd n h
    · simp at h

/-- If the normalized blob differs at every poll from the previous content,
the loop never observes stability: apart from fuel exhaustion, the outcome
is a timeout. -/
lemma waitLoop_changing (fetch : Nat → FetchResult) (s T q p : ℚ)
    (B : Nat → String) (hB : ∀ j, (fetch j).blob = some (B j))
    (hchg : ∀ j, B (j + 1) ≠ B j) :
    ∀ (fuel k : ℕ) (t : ℚ) (c : String) (lT : ℚ), B k ≠ c →
      waitLoop fetch s T q p fuel k t c lT = none ∨
        ∃ e n, waitLoop fetch s T q p fuel k t c lT =
          some (.timeout e T, n) := by
  intro fuel
  induction fuel with
  | zero =>
    intro k t c lT hne
    simp only [waitLoop]
    split
    · exact Or.inl rfl
    · exact Or.inr ⟨t - s, k, rfl⟩
  | succ f ih =>
    intro k t c lT hne
    simp only [waitLoop]
    split
    · have hBk := hB k
      cases heq : fetch k with
      | err msg => rw [heq] at hBk; simp [FetchResult.blob] at hBk
      | ok snap =>
        rw [heq] at hBk
        simp only [FetchResult.blob, Option.some.injEq] at hBk
        have hne2 : normalize snap ≠ c := by rw [hBk]; exact hne
        simp only [heq]
        rw [if_neg (fun hc => hne2 hc.1)]
        have hstep : waitStep (normalize snap) t c lT = (normalize snap, t) := by
          unfold waitStep
          rw [if_pos hne2]
        rw [hstep]
        exact ih (k + 1) (t + p) (normalize snap) t (by rw [hBk]; exact hchg k)
    · exact Or.inr ⟨t - s, k, rfl⟩

/-- The loop's outcome depends on each fetch result only through `normEq`:
raises with equal messages, snapshots with equal normalized blobs. -/
lemma waitLoop_congr (fetch fetch2 : Nat → FetchResult) (s T q p : ℚ)
    (h : ∀ j, (fetch j).normEq (fetch2 j)) :
    ∀ (fuel k : ℕ) (t : ℚ) (c : String) (lT : ℚ),
      waitLoop fetch s T q p fuel k t c lT =
        waitLoop fetch2 s T q p fuel k t c lT := by
  intro fuel
  induction fuel with
  | zero => intro k t c lT; simp only [waitLoop]
  | succ f ih =>
    intro k t c lT
    simp only [waitLoop]
    split
    · have hk := h k
      cases h1 : fetch k with
      | err msg =>
        cases h2 : fetch2 k with
        | err msg2 =>
          rw [h1, h2] at hk
          simp only [FetchResult.normEq] at hk
          simp only [h1, h2, hk]
        | ok snap2 =>
          rw [h1, h2] at hk
          simp [FetchResult.normEq] at hk
      | ok snap =>
        cases h2 : fetch2 k with
        | err msg2 =>
          rw [h1, h2] at hk
          simp [FetchResult.normEq] at hk
        | ok snap2 =>
          rw [h1, h2] at hk
          simp only [FetchResult.normEq] at hk
          simp only [h1, h2, hk]
          split
          · rfl
          · exact ih (k + 1) _ _ _
    · rfl

/-- Two fetch functions that agree on all polls up to a raising one drive
the loop identically: the loop never inspects later polls. -/
lemma waitLoop_agree_upto (fetch fetch2 : Nat → FetchResult) (s T q p : ℚ)
    (k : ℕ) (msg : String) (herr : fetch k = .err msg)
    (hagree : ∀ i, i ≤ k → fetch2 i = fetch i) :
    ∀ (fuel j : ℕ) (t : ℚ) (c : String) (lT : ℚ), j ≤ k →
      waitLoop fetch2 s T q p fuel j t c lT =
        waitLoop fetch s T q p fuel j t c lT := by
  intro fuel
  induction fuel with
  | zero => intro j t c lT hj; simp only [waitLoop]
  | succ f ih =>
    intro j t c lT hj
    simp only [waitLoop]
    split
    · rw [hagree j hj]
      cases h1 : fetch j with
      | err m => simp only [h1]
      | ok snap =>
        simp only [h1]
        have hjk : j < k := by
          rcases lt_or_eq_of_le hj with hlt | heqj
          · exact hlt
          · exfalso
            rw [heqj, herr] at h1
            exact absurd h1 (by simp)
        split
        · rfl
        · exact ih (j + 1) _ _ _ hjk
    · rfl

/-- If polls before `k` succeed, poll `k` raises, and poll `k` lies within
the budget, the loop either returns the fetch error with exactly `k`
completed fetches or has already returned success. -/
lemma waitLoop_err_hits (fetch : Nat → FetchResult) (s T q p : ℚ) (k : ℕ)
    (msg : String) (hp : 0 < p) (hkT : (k : ℚ) * p < T)
    (hok : ∀ j, j < k → ((fetch j).blob).isSome) (herr : fetch k = .err msg) :
    ∀ (fuel j : ℕ) (c : String) (lT : ℚ), j ≤ k → k + 1 - j ≤ fuel →
      waitLoop fetch s T q p fuel j (s + (j : ℚ) * p) c lT =
          some (.error msg "WAIT_IDLE_FAILED", k) ∨
        ∃ e n, waitLoop fetch s T q p fuel j (s + (j : ℚ) * p) c lT =
          some (.success e, n) := by
  intro fuel
  induction fuel with
  | zero => intro j c lT hj hf; omega
  | succ f ih =>
    intro j c lT hj hf
    have hent : s + (j : ℚ) * p - s < T := by
      have hjk : (j : ℚ) ≤ (k : ℚ) := by exact_mod_cast hj
      nlinarith
    simp only [waitLoop]
    rw [if_pos hent]
    rcases eq_or_lt_of_le hj with hjq | hjlt
    · subst hjq
      simp only [herr]
      exact Or.inl trivial
    · have hsnap := hok j hjlt
      cases h1 : fetch j with
      | err m => rw [h1] at hsnap; simp [FetchResult.blob] at hsnap
      | ok snap =>
        simp only [h1]
        by_cases hcond : normalize snap = c ∧ q ≤ s + (j : ℚ) * p - lT
        · rw [if_pos hcond]
          exact Or.inr ⟨_, _, rfl⟩
        · rw [if_neg hcond]
          have ht2 : s + (j : ℚ) * p + p = s + ((j + 1 : ℕ) : ℚ) * p := by
            push_cast; ring
          rw [ht2]
          exact ih (j + 1) _ _ hjlt (by omega)

/-- After the pane content has stabilized at blob `b` since poll `N`, the
loop (already carrying `last_content = b`) declares success no later than
poll `N + ⌈quiet_for / poll_interval⌉`. -/
lemma waitLoop_stable_success (fetch : Nat → FetchResult) (s T q p : ℚ)
    (b : String) (N : ℕ) (hp : 0 < p) (hq : 0 < q)
    (hconst : ∀ j, N ≤ j → (fetch j).blob = some b)
    (hbudget : ((N + ⌈q / p⌉.toNat : ℕ) : ℚ) * p < T) :
    ∀ (fuel k : ℕ) (lT : ℚ), N < k → k ≤ N + ⌈q / p⌉.toNat →
      N + ⌈q / p⌉.toNat + 1 - k ≤ fuel → lT ≤ s + (N : ℚ) * p →
      ∃ e n, waitLoop fetch s T q p fuel k (s + (k : ℚ) * p) b lT =
        some (.success e, n) := by
  intro fuel
  induction fuel with
  | zero => intro k lT h1 h2 h3 h4; omega
  | succ f ih =>
    intro k lT h1 h2 h3 h4
    have hent : s + (k : ℚ) * p - s < T := by
      have hk2 : (k : ℚ) ≤ ((N + ⌈q / p⌉.toNat : ℕ) : ℚ) := by exact_mod_cast h2
      nlinarith
    have hBk := hconst k h1.le
    cases h5 : fetch k with
    | err m => rw [h5] at hBk; simp [FetchResult.blob] at hBk
    | ok snap =>
      rw [h5] at hBk
      simp only [FetchResult.blob, Option.some.injEq] at hBk
      simp only [waitLoop, h5]
      rw [if_pos hent]
      by_cases hcond : normalize snap = b ∧ q ≤ s + (k : ℚ) * p - lT
      · rw [if_pos hcond]
        exact ⟨_, _, rfl⟩
      · have hkN : k < N + ⌈q / p⌉.toNat := by
          rcases lt_or_eq_of_le h2 with hlt | heq2
          · exact hlt
          · exfalso
            apply hcond
            refine ⟨hBk, ?_⟩
            have hc0 : (0 : ℤ) < ⌈q / p⌉ := Int.ceil_pos.mpr (div_pos hq hp)
            have hq1 : q ≤ ((⌈q / p⌉.toNat : ℕ) : ℚ) * p := by
              have hdn := le_ceil_toNat (q / p) hc0.le
              calc q = q / p * p := (div_mul_cancel₀ q hp.ne').symm
                _ ≤ ((⌈q / p⌉.toNat : ℕ) : ℚ) * p :=
                  mul_le_mul_of_nonneg_right hdn hp.le
            have hcast : (k : ℚ) = (N : ℚ) + ((⌈q / p⌉.toNat : ℕ) : ℚ) := by
              exact_mod_cast heq2
            have hmul : (k : ℚ) * p = (N : ℚ) * p + ((⌈q / p⌉.toNat : ℕ) : ℚ) * p := by
              rw [hcast]; ring
            linarith
        rw [if_neg hcond]
        have hstep : waitStep (normalize snap) (s + (k : ℚ) * p) b lT = (b, lT) := by
          unfold waitStep
          rw [if_neg (by rw [hBk]; exact fun hx => hx rfl)]
        rw [hstep]
        have ht2 : s + (k : ℚ) * p + p = s + ((k + 1 : ℕ) : ℚ) * p := by
          push_cast; ring
        rw [ht2]
        exact ih (k + 1) lT (by omega) (by omega) (by omega) h4

/-- From loop entry the detector reaches the stabilized regime: when every
fetch succeeds and content is constant from poll `N` on, the loop returns
success within the timeout budget. -/
lemma waitLoop_reaches_stable (fetch : Nat → FetchResult) (s T q p : ℚ)
    (b : String) (N : ℕ) (hp : 0 < p) (hq : 0 < q)
    (hok : ∀ j, ((fetch j).blob).isSome)
    (hconst : ∀ j, N ≤ j → (fetch j).blob = some b)
    (hbudget : ((N + ⌈q / p⌉.toNat : ℕ) : ℚ) * p < T) :
    ∀ (fuel k : ℕ) (c : String) (lT : ℚ), k ≤ N →
      N + ⌈q / p⌉.toNat + 1 - k ≤ fuel → s ≤ lT → lT ≤ s + (k : ℚ) * p →
      ∃ e n, waitLoop fetch s T q p fuel k (s + (k : ℚ) * p) c lT =
        some (.success e, n) := by
  have hc0 : (0 : ℤ) < ⌈q / p⌉ := Int.ceil_pos.mpr (div_pos hq hp)
  have hceil1 : 1 ≤ ⌈q / p⌉.toNat := by omega
  intro fuel
  induction fuel with
  | zero => intro k c lT h1 h2 h3 h4; omega
  | succ f ih =>
    intro k c lT h1 h2 h3 h4
    have hent : s + (k : ℚ) * p - s < T := by
      have hk2 : (k : ℚ) ≤ ((N + ⌈q / p⌉.toNat : ℕ) : ℚ) := by
        exact_mod_cast le_trans h1 (Nat.le_add_right N _)
      nlinarith
    have hsnapk := hok k
    cases h5 : fetch k with
    | err m => rw [h5] at hsnapk; simp [FetchResult.blob] at hsnapk
    | ok snap =>
      simp only [waitLoop, h5]
      rw [if_pos hent]
      by_cases hcond : normalize snap = c ∧ q ≤ s + (k : ℚ) * p - lT
      · rw [if_pos hcond]
        exact ⟨_, _, rfl⟩
      · rw [if_neg hcond]
        have ht2 : s + (k : ℚ) * p + p = s + ((k + 1 : ℕ) : ℚ) * p := by
          push_cast; ring
        rw [ht2]
        obtain ⟨hb1, hb2⟩ :=
          waitStep_snd_bounds (normalize snap) (s + (k : ℚ) * p) c lT h4
        have hple : s + (k : ℚ) * p ≤ s + ((k + 1 : ℕ) : ℚ) * p := by
          push_cast; nlinarith
        rcases lt_or_eq_of_le h1 with hkN | hkN
        · exact ih (k + 1) _ _ hkN (by omega) (le_trans h3 hb1)
            (le_trans hb2 hple)
        · subst hkN
          have hBj := hconst k le_rfl
          rw [h5] at hBj
          simp only [FetchResult.blob, Option.some.injEq] at hBj
          have hc1 : (waitStep (normalize snap) (s + (k : ℚ) * p) c lT).1 = b := by
            unfold waitStep
            split
            · exact hBj
            · rename_i hnot
              rw [← not_not.mp hnot]
              exact hBj
          rw [hc1]
          exact waitLoop_stable_success fetch s T q p b k hp hq hconst hbudget
            f (k + 1) _ (by omega) (by omega) (by omega) hb2

/-- Reachable loop states keep `start_time ≤ last_change_time ≤ now`. -/
lemma waitReach_inv (fetch : Nat → FetchResult) (s T p : ℚ) (hp : 0 ≤ p) :
    ∀ (k : ℕ) (t : ℚ) (c : String) (lT : ℚ), WaitReach fetch s T p k t c lT →
      s ≤ lT ∧ lT ≤ t := by
  intro k t c lT hr
  induction hr with
  | init => exact ⟨le_rfl, le_rfl⟩
  | step k t c lT snap hr hcond hfetch ih =>
    obtain ⟨h1, h2⟩ := ih
    obtain ⟨hb1, hb2⟩ := waitStep_snd_bounds (normalize snap) t c lT h2
    exact ⟨le_trans h1 hb1, by linarith⟩

/-- When the pane resolves, `wait_idle` is exactly its detection core. -/
lemma wait_idle_of_found (windows : List WindowM) (wi pj : ℕ)
    (hfound : (find_pane_by_index windows wi pj).2.2 = none)
    (fetch : Nat → FetchResult) (s T q p : ℚ) :
    wait_idle windows wi pj fetch s T q p = wait_idle_core fetch s T q p := by
  simp only [wait_idle, hfound]

/-- Normalizing a single-line snapshot yields that line. -/
lemma normalize_single (a : String) : normalize (some [a]) = a := rfl

/-! ### Claim theorems -/

/-- C1, counterexample.  The claim quantifies over every snapshot sequence
in which the same text blob repeats continuously for at least `quiet_for`
seconds.  Here the blob `"b"` repeats from clock time 1 onwards, i.e. for
unboundedly longer than `quiet_for = 1`, yet with `timeout = 2` and
`poll_interval = 1` the detector returns a timeout outcome (elapsed 2, two
completed fetches), not success: the stability window does not complete
before the budget runs out. -/
theorem wait_idle_late_repeat_counterexample :
    wait_idle [⟨0, [0]⟩] 0 0
        (fun k => .ok (some [if k = 0 then "a" else "b"])) 0 2 1 1 =
      some (.timeout 2 2, 2) := by
  rw [wait_idle_of_found [⟨0, [0]⟩] 0 0 rfl]
  have hf : waitFuel 2 1 = 3 := by unfold waitFuel; norm_num; try simp
  unfold wait_idle_core
  rw [hf]
  simp only [waitLoop, waitStep, normalize_single]
  simp
  norm_num

/-- C1 (amended).  If every fetch succeeds, the normalized blob is
constantly `b` from poll `N` on, and the stability window completes within
the budget (`(N + ⌈quiet_for/poll_interval⌉) * poll_interval < timeout`),
then `wait_idle` returns success with `elapsed ≥ quiet_for`. -/
theorem wait_idle_stable_success_within_budget (windows : List WindowM)
    (wi pj : ℕ) (fetch : Nat → FetchResult) (s T q p : ℚ) (b : String) (N : ℕ)
    (hfound : (find_pane_by_index windows wi pj).2.2 = none)
    (hp : 0 < p) (hq : 0 < q)
    (hok : ∀ j, ((fetch j).blob).isSome)
    (hconst : ∀ j, N ≤ j → (fetch j).blob = some b)
    (hbudget : ((N + ⌈q / p⌉.toNat : ℕ) : ℚ) * p < T) :
    ∃ e n, wait_idle windows wi pj fetch s T q p = some (.success e, n) ∧
      q ≤ e := by
  rw [wait_idle_of_found windows wi pj hfound]
  unfold wait_idle_core
  have hfuel : N + ⌈q / p⌉.toNat + 1 - 0 ≤ waitFuel T p := by
    have h1 : ((N + ⌈q / p⌉.toNat : ℕ) : ℚ) < T / p := (lt_div_iff₀ hp).mpr hbudget
    have h2 : ((N + ⌈q / p⌉.toNat : ℕ) : ℚ) < ((⌈T / p⌉ : ℤ) : ℚ) :=
      lt_of_lt_of_le h1 (Int.le_ceil _)
    have h3 : ((N + ⌈q / p⌉.toNat : ℕ) : ℤ) < ⌈T / p⌉ := by exact_mod_cast h2
    unfold waitFuel
    omega
  obtain ⟨e, n, he⟩ := waitLoop_reaches_stable fetch s T q p b N hp hq hok
    hconst hbudget (waitFuel T p) 0 "" s (Nat.zero_le N) hfuel le_rfl
    (by norm_num)
  simp only [Nat.cast_zero, zero_mul, add_zero] at he
  refine ⟨e, n, he, ?_⟩
  exact (waitLoop_success_bounds fetch s T q p hp.le (waitFuel T p) 0 s "" s
    le_rfl le_rfl e n he).1

/-- C1, witness for the amended theorem: a pane constantly showing `"hi"`
from the very first poll, with `timeout = 5`, `quiet_for = 1`,
`poll_interval = 1`, ends in a success outcome. -/
theorem wait_idle_stable_success_within_budget_witness :
    isSuccessResult
      (wait_idle [⟨0, [0]⟩] 0 0 (fun _ => .ok (some ["hi"])) 0 5 1 1) =
      true := by
  obtain ⟨e, n, h1, h2⟩ := wait_idle_stable_success_within_budget
    [⟨0, [0]⟩] 0 0 (fun _ => .ok (some ["hi"])) 0 5 1 1 "hi" 0
    rfl (by norm_num) (by norm_num)
    (fun j => rfl) (fun j _ => rfl)
    (by
      have h1 : (⌈(1 : ℚ) / 1⌉).toNat = 1 := by norm_num; try simp
      rw [h1]
      norm_num)
  rw [h1]
  rfl

/-- C2.  A snapshot sequence whose blob changes on every poll drives
`wait_idle` to a timeout outcome, and every timeout outcome (for any fetch
sequence) has `timeout ≤ elapsed ≤ timeout + poll_interval`: each sleep
runs to completion before the `while` condition is re-checked. -/
theorem wait_idle_changing_timeout_bounds (windows : List WindowM)
    (wi pj : ℕ) (fetch : Nat → FetchResult) (s T q p : ℚ) (B : Nat → String)
    (hfound : (find_pane_by_index windows wi pj).2.2 = none)
    (hp : 0 < p) (hT : 0 < T)
    (hB : ∀ j, (fetch j).blob = some (B j))
    (hchg : ∀ j, B (j + 1) ≠ B j) (h0 : B 0 ≠ "") :
    (∃ e n, wait_idle windows wi pj fetch s T q p = some (.timeout e T, n) ∧
        T ≤ e ∧ e ≤ T + p) ∧
      ∀ (fetch2 : Nat → FetchResult) (e tv : ℚ) (n : ℕ),
        wait_idle windows wi pj fetch2 s T q p = some (.timeout e tv, n) →
          T ≤ e ∧ e ≤ T + p := by
  have hself : s - s = 0 := sub_self s
  constructor
  · rw [wait_idle_of_found windows wi pj hfound]
    unfold wait_idle_core
    rcases waitLoop_changing fetch s T q p B hB hchg (waitFuel T p) 0 s "" s h0
      with hnone | ⟨e, n, he⟩
    · exfalso
      have hsome := waitLoop_isSome fetch s T q p (waitFuel T p) 0 s "" s
        (by rw [hself, zero_add]; exact le_waitFuel_mul T p hp)
      rw [hnone] at hsome
      simp at hsome
    · have hb := waitLoop_timeout_bounds fetch s T q p (waitFuel T p) 0 s "" s
        (by rw [hself]; linarith) e T n he
      exact ⟨e, n, he, hb.1, hb.2.1.le⟩
  · intro fetch2 e tv n h
    rw [wait_idle_of_found windows wi pj hfound] at h
    unfold wait_idle_core at h
    have hb := waitLoop_timeout_bounds fetch2 s T q p (waitFuel T p) 0 s "" s
      (by rw [hself]; linarith) e tv n h
    exact ⟨hb.1, hb.2.1.le⟩

/-- C2, witness: a pane alternating between `"x"` and `"y"` on every poll
with `timeout = 2`, `poll_interval = 1` ends in a timeout outcome. -/
theorem wait_idle_changing_timeout_bounds_witness :
    isTimeoutResult
      (wait_idle [⟨0, [0]⟩] 0 0
        (fun k => .ok (some [if k % 2 = 0 then "x" else "y"])) 0 2 1 1) =
      true := by
  obtain ⟨⟨e, n, h1, h2, h3⟩, hall⟩ := wait_idle_changing_timeout_bounds
    [⟨0, [0]⟩] 0 0 (fun k => .ok (some [if k % 2 = 0 then "x" else "y"]))
    0 2 1 1 (fun k => if k % 2 = 0 then "x" else "y")
    rfl (by norm_num) (by norm_num)
    (fun j => by simp [FetchResult.blob, normalize_single])
    (fun j => by
      rcases Nat.mod_two_eq_zero_or_one j with hj | hj
      · have hj2 : (j + 1) % 2 = 1 := by omega
        simp [hj, hj2]
      · have hj2 : (j + 1) % 2 = 0 := by omega
        simp [hj, hj2])
    (by decide)
  rw [h1]
  rfl

/-- C3.  When `quiet_for > timeout`, `wait_idle` can never observe the
required stability inside the budget: for every sequence of snapshots (all
fetches succeeding) it returns a timeout outcome and never success. -/
theorem wait_idle_quiet_exceeds_timeout (windows : List WindowM) (wi pj : ℕ)
    (fetch : Nat → FetchResult) (s T q p : ℚ)
    (hfound : (find_pane_by_index windows wi pj).2.2 = none)
    (hp : 0 < p) (hT : 0 < T) (hq : T < q)
    (hok : ∀ j, ((fetch j).blob).isSome) :
    (∃ e n, wait_idle windows wi pj fetch s T q p = some (.timeout e T, n)) ∧
      ∀ e n, wait_idle windows wi pj fetch s T q p ≠ some (.success e, n) := by
  have hcore := wait_idle_of_found windows wi pj hfound fetch s T q p
  have hnosucc : ∀ e n, wait_idle_core fetch s T q p ≠ some (.success e, n) := by
    intro e n h
    unfold wait_idle_core at h
    have hb := waitLoop_success_bounds fetch s T q p hp.le (waitFuel T p) 0 s
      "" s le_rfl le_rfl e n h
    linarith [hb.1, hb.2]
  constructor
  · obtain ⟨r, hr⟩ := wait_idle_core_some fetch s T q p hp
    rcases r with ⟨w, n⟩
    cases w with
    | success e => exact absurd hr (hnosucc e n)
    | timeout e tv =>
      have hself : s - s = 0 := sub_self s
      have hb := waitLoop_timeout_bounds fetch s T q p (waitFuel T p) 0 s "" s
        (by rw [hself]; linarith) e tv n (by
          unfold wait_idle_core at hr
          exact hr)
      refine ⟨e, n, ?_⟩
      rw [hcore, hr, hb.2.2]
    | error m cd =>
      exfalso
      unfold wait_idle_core at hr
      exact waitLoop_no_error fetch s T q p hok (waitFuel T p) 0 s "" s m cd n hr
  · intro e n h
    rw [hcore] at h
    exact hnosucc e n h

/-- C3, witness: an always-empty pane with `timeout = 1 < quiet_for = 2`
ends in a timeout outcome and not in success. -/
theorem wait_idle_quiet_exceeds_timeout_witness :
    isTimeoutResult
        (wait_idle [⟨0, [0]⟩] 0 0 (fun _ => .ok none) 0 1 2 1) = true ∧
      isSuccessResult
        (wait_idle [⟨0, [0]⟩] 0 0 (fun _ => .ok none) 0 1 2 1) = false := by
  obtain ⟨⟨e, n, h1⟩, hns⟩ := wait_idle_quiet_exceeds_timeout
    [⟨0, [0]⟩] 0 0 (fun _ => .ok none) 0 1 2 1
    rfl (by norm_num) (by norm_num) (by norm_num) (fun j => rfl)
  constructor
  · rw [h1]; rfl
  · rw [h1]; rfl

/-- C4.  If the fetch raises on poll `k` (polls before it succeed, and
poll `k` occurs: it lies within the budget and the run did not already end
in success), `wait_idle` returns an error outcome carrying the underlying
message — distinct from success and timeout by its constructor — with
exactly `k` completed fetches; and any fetch sequence agreeing up to poll
`k` yields the identical outcome, so no later poll is ever attempted. -/
theorem wait_idle_fetch_error_aborts (windows : List WindowM) (wi pj : ℕ)
    (fetch fetch2 : Nat → FetchResult) (s T q p : ℚ) (k : ℕ) (msg : String)
    (hfound : (find_pane_by_index windows wi pj).2.2 = none)
    (hp : 0 < p) (hkT : (k : ℚ) * p < T)
    (hok : ∀ j, j < k → ((fetch j).blob).isSome)
    (herr : fetch k = .err msg)
    (hagree : ∀ i, i ≤ k → fetch2 i = fetch i)
    (hns : isSuccessResult (wait_idle windows wi pj fetch s T q p) = false) :
    wait_idle windows wi pj fetch s T q p =
        some (.error msg "WAIT_IDLE_FAILED", k) ∧
      wait_idle windows wi pj fetch2 s T q p =
        some (.error msg "WAIT_IDLE_FAILED", k) := by
  have hfuel : k + 1 - 0 ≤ waitFuel T p := by
    have h1 : (k : ℚ) < T / p := (lt_div_iff₀ hp).mpr hkT
    have h2 : (k : ℚ) < ((⌈T / p⌉ : ℤ) : ℚ) := lt_of_lt_of_le h1 (Int.le_ceil _)
    have h3 : (k : ℤ) < ⌈T / p⌉ := by exact_mod_cast h2
    unfold waitFuel
    omega
  have hmain := waitLoop_err_hits fetch s T q p k msg hp hkT hok herr
    (waitFuel T p) 0 "" s (Nat.zero_le k) hfuel
  simp only [Nat.cast_zero, zero_mul, add_zero] at hmain
  have hcore := wait_idle_of_found windows wi pj hfound fetch s T q p
  rcases hmain with herr2 | ⟨e, n, hsucc⟩
  · have h1 : wait_idle windows wi pj fetch s T q p =
        some (.error msg "WAIT_IDLE_FAILED", k) := by
      rw [hcore]; unfold wait_idle_core; exact herr2
    refine ⟨h1, ?_⟩
    have hagg := waitLoop_agree_upto fetch fetch2 s T q p k msg herr hagree
      (waitFuel T p) 0 s "" s (Nat.zero_le k)
    rw [wait_idle_of_found windows wi pj hfound fetch2 s T q p]
    unfold wait_idle_core
    rw [hagg]
    exact herr2
  · exfalso
    rw [hcore] at hns
    unfold wait_idle_core at hns
    rw [hsucc] at hns
    simp [isSuccessResult] at hns

/-- C4, witness: polls 0 and 1 return `"a"` and `"b"`, poll 2 raises
`"boom"`; the outcome is the error with two completed fetches, and a fetch
sequence that differs only from poll 3 on gives the identical outcome. -/
theorem wait_idle_fetch_error_aborts_witness :
    wait_idle [⟨0, [0]⟩] 0 0
        (fun k => if k = 0 then .ok (some ["a"])
          else if k = 1 then .ok (some ["b"]) else .err "boom") 0 3 5 1 =
      some (.error "boom" "WAIT_IDLE_FAILED", 2) ∧
    wait_idle [⟨0, [0]⟩] 0 0
        (fun k => if k = 0 then .ok (some ["a"])
          else if k = 1 then .ok (some ["b"])
          else if k = 2 then .err "boom" else .ok (some ["zzz"])) 0 3 5 1 =
      some (.error "boom" "WAIT_IDLE_FAILED", 2) := by
  refine wait_idle_fetch_error_aborts [⟨0, [0]⟩] 0 0
    (fun k => if k = 0 then .ok (some ["a"])
      else if k = 1 then .ok (some ["b"]) else .err "boom")
    (fun k => if k = 0 then .ok (some ["a"])
      else if k = 1 then .ok (some ["b"])
      else if k = 2 then .err "boom" else .ok (some ["zzz"]))
    0 3 5 1 2 "boom" rfl (by norm_num) (by norm_num) (by decide) rfl
    (by decide) ?_
  rw [wait_idle_of_found [⟨0, [0]⟩] 0 0 rfl]
  have hf : waitFuel 3 1 = 4 := by unfold waitFuel; norm_num; try simp
  unfold wait_idle_core
  rw [hf]
  simp [waitLoop, waitStep, normalize_single]
  norm_num [isSuccessResult, normalize_single]

/-- C5, counterexample.  With `timeout = 2`, `quiet_for = 1`,
`poll_interval = 1/2` and a pane constantly showing `"abc"`, the first
poll does register a change (empty to `"abc"`), but that change is
recorded at the same clock reading as `start_time`, so `wait_idle`
succeeds with `elapsed = 1 = quiet_for`, strictly less than `quiet_for +
poll_interval`: the claimed minimum of one extra poll interval is wrong. -/
theorem wait_idle_min_elapsed_counterexample :
    wait_idle [⟨0, [0]⟩] 0 0 (fun _ => .ok (some ["abc"])) 0 2 1 (1/2) =
        some (.success 1, 3) ∧ (1 : ℚ) < 1 + 1/2 := by
  constructor
  · rw [wait_idle_of_found [⟨0, [0]⟩] 0 0 rfl]
    have hf : waitFuel 2 (1/2) = 5 := by unfold waitFuel; norm_num; try simp
    unfold wait_idle_core
    rw [hf]
    simp only [waitLoop, waitStep, normalize_single]
    simp
    norm_num
  · norm_num

/-- C5 (amended).  For every snapshot sequence, a success outcome has
`elapsed ≥ quiet_for`.  The first poll of an already-idle non-empty pane
does restart the quiet clock, but the restart is recorded at the clock
reading of that same poll, so the minimum successful elapsed time is
`quiet_for` itself (reached when `quiet_for` is a multiple of
`poll_interval`), not `quiet_for` plus an extra poll interval. -/
theorem wait_idle_success_elapsed_ge_quiet (windows : List WindowM)
    (wi pj : ℕ) (fetch : Nat → FetchResult) (s T q p e : ℚ) (n : ℕ)
    (hfound : (find_pane_by_index windows wi pj).2.2 = none)
    (hp : 0 ≤ p)
    (h : wait_idle windows wi pj fetch s T q p = some (.success e, n)) :
    q ≤ e := by
  rw [wait_idle_of_found windows wi pj hfound] at h
  unfold wait_idle_core at h
  exact (waitLoop_success_bounds fetch s T q p hp (waitFuel T p) 0 s "" s
    le_rfl le_rfl e n h).1

/-- C5, witness for the amended theorem: the pane constantly showing
`"xyz"` succeeds with elapsed exactly `1 = quiet_for`. -/
theorem wait_idle_success_elapsed_ge_quiet_witness :
    wait_idle [⟨0, [0]⟩] 0 0 (fun _ => .ok (some ["xyz"])) 0 2 1 (1/2) =
        some (.success 1, 3) ∧ (1 : ℚ) ≤ 1 := by
  have hrun : wait_idle [⟨0, [0]⟩] 0 0 (fun _ => .ok (some ["xyz"])) 0 2 1 (1/2) =
      some (.success 1, 3) := by
    rw [wait_idle_of_found [⟨0, [0]⟩] 0 0 rfl]
    have hf : waitFuel 2 (1/2) = 5 := by unfold waitFuel; norm_num; try simp
    unfold wait_idle_core
    rw [hf]
    simp only [waitLoop, waitStep, normalize_single]
    simp
    norm_num
  exact ⟨hrun, wait_idle_success_elapsed_ge_quiet [⟨0, [0]⟩] 0 0
    (fun _ => .ok (some ["xyz"])) 0 2 1 (1/2) 1 3 rfl (by norm_num) hrun⟩

/-- C6.  Snapshots are compared as concatenated text: the normalized blob
of a line list is its newline join, an empty sequence or an unavailable
(`None`) fetch normalizes to the empty text, and two fetch sequences whose
results are pointwise normalization-equivalent drive `wait_idle` to the
identical outcome — the detector sees a snapshot only through its blob. -/
theorem wait_idle_depends_only_on_blob (windows : List WindowM) (wi pj : ℕ)
    (fetch fetch2 : Nat → FetchResult) (s T q p : ℚ) (ls : List String)
    (hfound : (find_pane_by_index windows wi pj).2.2 = none)
    (h : ∀ j, (fetch j).normEq (fetch2 j)) :
    wait_idle windows wi pj fetch s T q p =
        wait_idle windows wi pj fetch2 s T q p ∧
      normalize none = "" ∧ normalize (some []) = "" ∧
      normalize (some ls) = String.intercalate "\n" ls := by
  refine ⟨?_, rfl, rfl, ?_⟩
  · rw [wait_idle_of_found windows wi pj hfound fetch s T q p,
      wait_idle_of_found windows wi pj hfound fetch2 s T q p]
    unfold wait_idle_core
    exact waitLoop_congr fetch fetch2 s T q p h (waitFuel T p) 0 s "" s
  · cases ls with
    | nil => rfl
    | cons a tl => simp [normalize]

/-- C6, witness: the two-line snapshot `["a", "b"]` and the single-line
snapshot `["a\nb"]` concatenate to the same text, and `wait_idle` cannot
tell the two panes apart. -/
theorem wait_idle_depends_only_on_blob_witness :
    wait_idle [⟨0, [0]⟩] 0 0 (fun _ => .ok (some ["a", "b"])) 0 3 1 1 =
        wait_idle [⟨0, [0]⟩] 0 0 (fun _ => .ok (some ["a\nb"])) 0 3 1 1 ∧
      normalize none = "" ∧ normalize (some []) = "" ∧
      normalize (some ["a", "b"]) = String.intercalate "\n" ["a", "b"] := by
  exact wait_idle_depends_only_on_blob [⟨0, [0]⟩] 0 0
    (fun _ => .ok (some ["a", "b"])) (fun _ => .ok (some ["a\nb"]))
    0 3 1 1 ["a", "b"] rfl
    (fun j => show normalize (some ["a", "b"]) = normalize (some ["a\nb"])
      from by decide)

/-- C7.  In every state the loop can reach, `start_time ≤ last_change_time
≤ now` holds, and one more iteration can only move `last_change_time`
forward: `last_change_time ≤ (waitStep blob now c last_change_time).2`. -/
theorem wait_idle_last_change_time_invariant (fetch : Nat → FetchResult)
    (s T p : ℚ) (k : ℕ) (t : ℚ) (c : String) (lT : ℚ)
    (snap : Option (List String)) (hp : 0 ≤ p)
    (hr : WaitReach fetch s T p k t c lT) :
    s ≤ lT ∧ lT ≤ t ∧ lT ≤ (waitStep (normalize snap) t c lT).2 := by
  obtain ⟨h1, h2⟩ := waitReach_inv fetch s T p hp k t c lT hr
  exact ⟨h1, h2, (waitStep_snd_bounds _ t c lT h2).1⟩

/-- C7, witness: the invariant at the loop's entry state. -/
theorem wait_idle_last_change_time_invariant_witness :
    (0 : ℚ) ≤ 0 ∧ (0 : ℚ) ≤ 0 ∧
      (0 : ℚ) ≤ (waitStep (normalize (some ["x"])) 0 "" 0).2 :=
  wait_idle_last_change_time_invariant (fun _ => .ok none) 0 1 1 0 0 "" 0
    (some ["x"]) (by norm_num) WaitReach.init

/-- C8.  When the pane does not resolve, `wait_idle` returns the
`PANE_NOT_FOUND` error with the resolution message and zero completed
fetches, and the result does not depend on the fetch capability at all:
no snapshot is fetched and the resolution is not retried. -/
theorem wait_idle_pane_not_found (windows : List WindowM) (wi pj : ℕ)
    (msg : String) (fetch fetch2 : Nat → FetchResult) (s T q p : ℚ)
    (h : (find_pane_by_index windows wi pj).2.2 = some msg) :
    wait_idle windows wi pj fetch s T q p =
        some (.error msg "PANE_NOT_FOUND", 0) ∧
      wait_idle windows wi pj fetch s T q p =
        wait_idle windows wi pj fetch2 s T q p := by
  constructor
  · simp only [wait_idle, h]
  · simp only [wait_idle, h]

/-- C8, witness: window 2 does not exist, so the wait reports
`Window 2 not found` with zero fetches, for any fetch capability. -/
theorem wait_idle_pane_not_found_witness :
    wait_idle [⟨1, [0]⟩] 2 0 (fun _ => .err "x") 0 1 1 1 =
        some (.error "Window 2 not found" "PANE_NOT_FOUND", 0) ∧
      wait_idle [⟨1, [0]⟩] 2 0 (fun _ => .err "x") 0 1 1 1 =
        wait_idle [⟨1, [0]⟩] 2 0 (fun _ => .ok none) 0 1 1 1 :=
  wait_idle_pane_not_found [⟨1, [0]⟩] 2 0 "Window 2 not found"
    (fun _ => .err "x") (fun _ => .ok none) 0 1 1 1 rfl

/-- C9.  For a positive poll interval and positive finite timeout the
polling loop terminates: the fuel `waitFuel timeout poll_interval =
⌈timeout / poll_interval⌉ + 1` bounds its iterations, and with that fuel
`wait_idle` always returns an outcome. -/
theorem wait_idle_terminates (windows : List WindowM) (wi pj : ℕ)
    (fetch : Nat → FetchResult) (s T q p : ℚ)
    (hfound : (find_pane_by_index windows wi pj).2.2 = none)
    (hp : 0 < p) (hT : 0 < T) :
    (∃ r, wait_idle windows wi pj fetch s T q p = some r) ∧
      waitFuel T p = (⌈T / p⌉).toNat + 1 := by
  refine ⟨?_, rfl⟩
  rw [wait_idle_of_found windows wi pj hfound]
  exact wait_idle_core_some fetch s T q p hp

/-- C9, witness: even a fetch that raises immediately yields an outcome. -/
theorem wait_idle_terminates_witness :
    (wait_idle [⟨0, [0]⟩] 0 0 (fun _ => .err "x") 0 1 1 1).isSome = true := by
  obtain ⟨⟨r, hr⟩, h2⟩ := wait_idle_terminates [⟨0, [0]⟩] 0 0
    (fun _ => .err "x") 0 1 1 1 rfl (by norm_num) (by norm_num)
  rw [hr]
  rfl

/-- C10.  For `lines ≥ 1` and a resolvable pane, a successful capture of
`n` lines returns the newline-join of the last `min n lines` lines with
the `lines` field equal to `min n lines`; a `None` capture result is
treated as zero lines with empty content. -/
theorem capture_pane_last_lines (windows : List WindowM) (wi pj : ℕ)
    (L : ℕ) (ls : List String) (hL : 1 ≤ L)
    (hfound : (find_pane_by_index windows wi pj).2.2 = none) :
    capture_pane windows wi pj (.ok (some ls)) L =
        .success (String.intercalate "\n" (ls.drop (ls.length - L)))
          (min ls.length L) ∧
      capture_pane windows wi pj (.ok none) L = .success "" 0 := by
  constructor
  · simp only [capture_pane, hfound]
    by_cases hlen : L < ls.length
    · rw [if_pos hlen]
      have hsl : pySliceLast L ls = ls.drop (ls.length - L) := by
        unfold pySliceLast
        rw [if_neg (by omega)]
      rw [hsl]
      have hlength : (ls.drop (ls.length - L)).length = L := by
        rw [List.length_drop]
        omega
      have hne : ls.drop (ls.length - L) ≠ [] := by
        intro hcc
        have h0 : (ls.drop (ls.length - L)).length = 0 := by rw [hcc]; rfl
        rw [hlength] at h0
        omega
      rw [if_neg hne, hlength]
      have hmin : min ls.length L = L := by omega
      rw [hmin]
    · rw [if_neg hlen]
      have hz : ls.length - L = 0 := by omega
      rw [hz, List.drop_zero]
      have hmin : min ls.length L = ls.length := by omega
      rw [hmin]
      by_cases hnil : ls = []
      · subst hnil
        rfl
      · rw [if_neg hnil]
  · simp only [capture_pane, hfound]
    have htr : (if L < ([] : List String).length then pySliceLast L []
        else ([] : List String)) = [] := by
      rw [if_neg (by simp)]
    rw [htr]
    rfl

/-- C10, witness: capturing the three-line pane `["a", "b", "c"]` with
`lines = 2` keeps the last two lines, and a `None` capture yields zero
lines. -/
theorem capture_pane_last_lines_witness :
    capture_pane [⟨0, [0, 1]⟩] 0 1 (.ok (some ["a", "b", "c"])) 2 =
        .success "b\nc" 2 ∧
      capture_pane [⟨0, [0, 1]⟩] 0 1 (.ok none) 2 = .success "" 0 := by
  have h := capture_pane_last_lines [⟨0, [0, 1]⟩] 0 1 2 ["a", "b", "c"]
    (by norm_num) rfl
  exact ⟨h.1, h.2⟩

end TmuxManager
